import Mathlib

/-!
# Verification of MerkleKV against its specification

Shallow embedding of the MerkleKV store (`src/store/merkle.rs`,
`src/store/rwlock_engine.rs`, `src/server.rs`, `src/sync.rs`,
`src/replication.rs`) and proofs about it.

Byte strings are modelled as `List Nat`, machine integers as `Nat`/`Int`
with explicit reductions where overflow matters, and SHA-256 is kept
abstract as a parameter `H : Bytes → Bytes` (every claim under study uses
the hash as a black box, identically on both sides of each statement).
Rust `HashMap`s are modelled as association lists; all theorems about
stores only ever observe them through `alookup`, which makes the unspecified
iteration order of a `HashMap` immaterial.
-/

namespace MerkleKV

/-- Raw bytes (each entry is a byte value). -/
abbrev Bytes := List Nat

/-- Keys of the Merkle tree: the UTF-8 bytes of the Rust `String` key.
Rust compares `String`s by their bytes, so lexicographic order on the byte
list is exactly the order `rebuild` sorts by. -/
abbrev Key := List Nat

/-! ## Association-list model of `HashMap` -/

/-- Lookup in an association list (models `HashMap::get`). -/
def alookup {κ : Type} [DecidableEq κ] {α : Type} (k : κ) : List (κ × α) → Option α
  | [] => none
  | p :: t => if p.1 = k then some p.2 else alookup k t

/-- Insert-or-replace (models `HashMap::insert`). -/
def assocSet {κ : Type} [DecidableEq κ] {α : Type} (k : κ) (v : α) :
    List (κ × α) → List (κ × α)
  | [] => [(k, v)]
  | p :: t => if p.1 = k then (k, v) :: t else p :: assocSet k v t

/-- Removal (models `HashMap::remove`). -/
def assocDel {κ : Type} [DecidableEq κ] {α : Type} (k : κ) (l : List (κ × α)) :
    List (κ × α) :=
  l.filter (fun p => decide (p.1 ≠ k))

/-- The keys of an association list. -/
def keysOf {κ : Type} {α : Type} (l : List (κ × α)) : List κ :=
  l.map Prod.fst

/-- No key occurs twice: the invariant every `HashMap` satisfies. -/
abbrev nodupKeys {κ : Type} {α : Type} (l : List (κ × α)) : Prop :=
  (keysOf l).Nodup

@[simp] theorem keysOf_nil {κ α : Type} : keysOf ([] : List (κ × α)) = [] := rfl

@[simp] theorem keysOf_cons {κ α : Type} (p : κ × α) (t : List (κ × α)) :
    keysOf (p :: t) = p.1 :: keysOf t := rfl

theorem alookup_cons_self {κ : Type} [DecidableEq κ] {α : Type} (p : κ × α)
    (t : List (κ × α)) : alookup p.1 (p :: t) = some p.2 := by
  simp [alookup]

theorem alookup_cons_ne {κ : Type} [DecidableEq κ] {α : Type} (p : κ × α)
    (t : List (κ × α)) {k : κ} (h : p.1 ≠ k) : alookup k (p :: t) = alookup k t := by
  simp [alookup, h]

theorem mem_keysOf_of_alookup {κ : Type} [DecidableEq κ] {α : Type} {k : κ}
    {l : List (κ × α)} {v : α} (h : alookup k l = some v) : k ∈ keysOf l := by
  induction l with
  | nil => simp [alookup] at h
  | cons p t ih =>
    rw [keysOf_cons]
    by_cases hp : p.1 = k
    · rw [hp]; exact List.mem_cons_self _ _
    · rw [alookup_cons_ne p t hp] at h
      exact List.mem_cons_of_mem _ (ih h)

theorem alookup_eq_none_of_not_mem {κ : Type} [DecidableEq κ] {α : Type} {k : κ}
    {l : List (κ × α)} (h : k ∉ keysOf l) : alookup k l = none := by
  induction l with
  | nil => rfl
  | cons p t ih =>
    rw [keysOf_cons, List.mem_cons] at h
    push_neg at h
    rw [alookup_cons_ne p t (fun e => h.1 e.symm)]
    exact ih h.2

theorem alookup_assocSet {κ : Type} [DecidableEq κ] {α : Type} (k k' : κ) (v : α)
    (l : List (κ × α)) :
    alookup k (assocSet k' v l) = if k' = k then some v else alookup k l := by
  induction l with
  | nil => by_cases h : k' = k <;> simp [assocSet, alookup, h]
  | cons p t ih =>
    by_cases hp : p.1 = k'
    · rw [show assocSet k' v (p :: t) = (k', v) :: t by simp [assocSet, hp]]
      by_cases hk : k' = k
      · subst hk; simp [alookup]
      · rw [alookup_cons_ne _ t (show (k', v).1 ≠ k from hk), if_neg hk,
          alookup_cons_ne p t (fun e => hk (hp.symm.trans e))]
    · rw [show assocSet k' v (p :: t) = p :: assocSet k' v t by simp [assocSet, hp]]
      by_cases hk : p.1 = k
      · have hne : ¬ k' = k := fun e => hp (hk.trans e.symm)
        rw [if_neg hne]
        subst hk; simp [alookup]
      · rw [alookup_cons_ne _ _ hk, ih, alookup_cons_ne p t hk]

theorem alookup_assocDel {κ : Type} [DecidableEq κ] {α : Type} (k k' : κ)
    (l : List (κ × α)) :
    alookup k (assocDel k' l) = if k' = k then none else alookup k l := by
  induction l with
  | nil => by_cases h : k' = k <;> simp [assocDel, alookup, h]
  | cons p t ih =>
    by_cases hp : p.1 = k'
    · rw [show assocDel k' (p :: t) = assocDel k' t by
        simp [assocDel, List.filter_cons, hp]]
      rw [ih]
      by_cases hk : k' = k
      · simp [hk]
      · rw [if_neg hk, if_neg hk, alookup_cons_ne p t (fun e => hk (hp.symm.trans e))]
    · rw [show assocDel k' (p :: t) = p :: assocDel k' t by
        simp [assocDel, List.filter_cons, hp]]
      by_cases hk : p.1 = k
      · have hne : ¬ k' = k := fun e => hp (hk.trans e.symm)
        rw [if_neg hne]
        subst hk; simp [alookup]
      · rw [alookup_cons_ne _ _ hk, ih]
        by_cases h2 : k' = k
        · simp [h2]
        · rw [if_neg h2, if_neg h2, alookup_cons_ne p t hk]

theorem mem_keysOf_assocSet {κ : Type} [DecidableEq κ] {α : Type} {a k : κ}
    {v : α} {l : List (κ × α)} (h : a ∈ keysOf (assocSet k v l)) :
    a = k ∨ a ∈ keysOf l := by
  induction l with
  | nil => simpa [assocSet, keysOf] using h
  | cons p t ih =>
    by_cases hp : p.1 = k
    · rw [show assocSet k v (p :: t) = (k, v) :: t by simp [assocSet, hp],
        keysOf_cons] at h
      rcases List.mem_cons.mp h with h | h
      · exact Or.inl h
      · exact Or.inr (by rw [keysOf_cons]; exact List.mem_cons_of_mem _ h)
    · rw [show assocSet k v (p :: t) = p :: assocSet k v t by simp [assocSet, hp],
        keysOf_cons] at h
      rcases List.mem_cons.mp h with h | h
      · exact Or.inr (by rw [keysOf_cons, h]; exact List.mem_cons_self _ _)
      · rcases ih h with h' | h'
        · exact Or.inl h'
        · exact Or.inr (by rw [keysOf_cons]; exact List.mem_cons_of_mem _ h')

theorem nodupKeys_assocSet {κ : Type} [DecidableEq κ] {α : Type} (k : κ) (v : α)
    {l : List (κ × α)} (h : nodupKeys l) : nodupKeys (assocSet k v l) := by
  induction l with
  | nil => simp [assocSet, nodupKeys, keysOf]
  | cons p t ih =>
    simp only [nodupKeys, keysOf_cons, List.nodup_cons] at h
    by_cases hp : p.1 = k
    · rw [show assocSet k v (p :: t) = (k, v) :: t by simp [assocSet, hp]]
      simp only [nodupKeys, keysOf_cons, List.nodup_cons]
      exact ⟨hp ▸ h.1, h.2⟩
    · rw [show assocSet k v (p :: t) = p :: assocSet k v t by simp [assocSet, hp]]
      simp only [nodupKeys, keysOf_cons, List.nodup_cons]
      refine ⟨fun hm => ?_, ih h.2⟩
      rcases mem_keysOf_assocSet hm with h' | h'
      · exact hp h'
      · exact h.1 h'

theorem nodupKeys_assocDel {κ : Type} [DecidableEq κ] {α : Type} (k : κ)
    {l : List (κ × α)} (h : nodupKeys l) : nodupKeys (assocDel k l) := by
  have hsub : (keysOf (assocDel k l)).Sublist (keysOf l) :=
    (List.filter_sublist l).map Prod.fst
  exact List.Nodup.sublist hsub h

/-! ## Lexicographic byte order (Rust `Ord` on `String`/`Vec<u8>`) -/

/-- Strict lexicographic order on byte strings: `a.cmp(b) == Less`. -/
def keyLt : Key → Key → Bool
  | [], [] => false
  | [], _ :: _ => true
  | _ :: _, [] => false
  | a :: as, b :: bs => if a < b then true else if b < a then false else keyLt as bs

/-- Non-strict order: `a.cmp(b) != Greater`. -/
def keyLe (a b : Key) : Bool := !(keyLt b a)

theorem keyLt_trichotomy : ∀ a b : Key, keyLt a b = true ∨ a = b ∨ keyLt b a = true
  | [], [] => Or.inr (Or.inl rfl)
  | [], _ :: _ => Or.inl rfl
  | _ :: _, [] => Or.inr (Or.inr rfl)
  | a :: as, b :: bs => by
    rcases Nat.lt_trichotomy a b with h | h | h
    · exact Or.inl (by simp [keyLt, h])
    · subst h
      rcases keyLt_trichotomy as bs with h' | h' | h'
      · exact Or.inl (by simp [keyLt, h'])
      · exact Or.inr (Or.inl (by rw [h']))
      · exact Or.inr (Or.inr (by simp [keyLt, h']))
    · exact Or.inr (Or.inr (by simp [keyLt, h]))

theorem keyLt_asymm : ∀ a b : Key, keyLt a b = true → keyLt b a = false
  | [], [] => by simp [keyLt]
  | [], _ :: _ => by simp [keyLt]
  | _ :: _, [] => by simp [keyLt]
  | a :: as, b :: bs => by
    intro h
    rcases Nat.lt_trichotomy a b with hc | hc | hc
    · simp [keyLt, hc, Nat.lt_asymm hc]
    · subst hc
      simp [keyLt, Nat.lt_irrefl] at h ⊢
      exact keyLt_asymm as bs h
    · simp [keyLt, hc, Nat.lt_asymm hc] at h

theorem keyLt_irrefl (a : Key) : keyLt a a = false := by
  by_cases h : keyLt a a = true
  · exact keyLt_asymm a a h
  · exact Bool.eq_false_iff.mpr h

theorem keyLe_total (a b : Key) : keyLe a b = true ∨ keyLe b a = true := by
  rcases keyLt_trichotomy a b with h | h | h
  · exact Or.inl (by simp [keyLe, keyLt_asymm a b h])
  · subst h
    exact Or.inl (by simp [keyLe, keyLt_irrefl])
  · exact Or.inr (by simp [keyLe, keyLt_asymm b a h])

theorem eq_of_keyLe_of_keyLe {a b : Key} (h1 : keyLe a b = true)
    (h2 : keyLe b a = true) : a = b := by
  simp [keyLe] at h1 h2
  rcases keyLt_trichotomy a b with h | h | h
  · exact absurd h (by simp [h2])
  · exact h
  · exact absurd h (by simp [h1])

theorem keyLt_trans : ∀ a b c : Key, keyLt a b = true → keyLt b c = true →
    keyLt a c = true
  | [], [], _ => by simp [keyLt]
  | [], _ :: _, [] => by simp [keyLt]
  | [], _ :: _, _ :: _ => by simp [keyLt]
  | _ :: _, [], _ => by simp [keyLt]
  | _ :: _, _ :: _, [] => by simp [keyLt]
  | a :: as, b :: bs, c :: cs => by
    intro h1 h2
    rcases Nat.lt_trichotomy a b with hab | hab | hab
    · rcases Nat.lt_trichotomy b c with hbc | hbc | hbc
      · simp [keyLt, Nat.lt_trans hab hbc]
      · subst hbc; simp [keyLt, hab]
      · simp [keyLt, Nat.lt_asymm hbc, hbc] at h2
    · subst hab
      rcases Nat.lt_trichotomy a c with hbc | hbc | hbc
      · simp [keyLt, hbc]
      · subst hbc
        simp [keyLt, Nat.lt_irrefl] at h1 h2 ⊢
        exact keyLt_trans _ _ _ h1 h2
      · simp [keyLt, Nat.lt_asymm hbc, hbc] at h2
    · simp [keyLt, Nat.lt_asymm hab, hab] at h1

theorem keyLe_iff {a b : Key} : keyLe a b = true ↔ keyLt b a = false := by
  simp [keyLe]

theorem keyLe_trans {a b c : Key} (h1 : keyLe a b = true) (h2 : keyLe b c = true) :
    keyLe a c = true := by
  rw [keyLe_iff] at h1 h2 ⊢
  by_cases hca : keyLt c a = true
  · exfalso
    rcases keyLt_trichotomy a b with h | h | h
    · rw [keyLt_trans c a b hca h] at h2; exact Bool.noConfusion h2
    · subst h; rw [hca] at h2; exact Bool.noConfusion h2
    · rw [h] at h1; exact Bool.noConfusion h1
  · exact Bool.eq_false_iff.mpr hca

/-! ## Sorting leaves by key (`leaves.sort_by(|a, b| a.0.cmp(b.0))`) -/

/-- Insert one entry into a key-sorted list. -/
def insertByKey {α : Type} (p : Key × α) : List (Key × α) → List (Key × α)
  | [] => [p]
  | q :: t => if keyLe p.1 q.1 then p :: q :: t else q :: insertByKey p t

/-- Insertion sort by key: the deterministic ordering `rebuild` imposes on
the leaves taken from the hash map. -/
def sortByKey {α : Type} (l : List (Key × α)) : List (Key × α) :=
  l.foldr insertByKey []

/-- Adjacent entries of a list are in key order. -/
abbrev sortedByKey {α : Type} (l : List (Key × α)) : Prop :=
  l.Pairwise (fun p q => keyLe p.1 q.1 = true)

theorem perm_insertByKey {α : Type} (p : Key × α) (l : List (Key × α)) :
    (insertByKey p l).Perm (p :: l) := by
  induction l with
  | nil => exact List.Perm.refl _
  | cons q t ih =>
    by_cases h : keyLe p.1 q.1 = true
    · rw [show insertByKey p (q :: t) = p :: q :: t by simp [insertByKey, h]]
    · rw [show insertByKey p (q :: t) = q :: insertByKey p t by simp [insertByKey, h]]
      exact (ih.cons q).trans (List.Perm.swap p q t)

theorem perm_sortByKey {α : Type} (l : List (Key × α)) : (sortByKey l).Perm l := by
  induction l with
  | nil => exact List.Perm.refl _
  | cons p t ih =>
    rw [show sortByKey (p :: t) = insertByKey p (sortByKey t) from rfl]
    exact (perm_insertByKey p (sortByKey t)).trans (ih.cons p)

theorem mem_insertByKey {α : Type} {x p : Key × α} {l : List (Key × α)}
    (h : x ∈ insertByKey p l) : x = p ∨ x ∈ l := by
  have := (perm_insertByKey p l).mem_iff.mp h
  simpa [List.mem_cons] using this

theorem sorted_insertByKey {α : Type} (p : Key × α) {l : List (Key × α)}
    (h : sortedByKey l) : sortedByKey (insertByKey p l) := by
  induction l with
  | nil => simp [insertByKey, sortedByKey]
  | cons q t ih =>
    have hh := List.pairwise_cons.mp h
    by_cases hle : keyLe p.1 q.1 = true
    · rw [show insertByKey p (q :: t) = p :: q :: t by simp [insertByKey, hle]]
      refine List.pairwise_cons.mpr ⟨fun r hr => ?_, h⟩
      rcases List.mem_cons.mp hr with h' | h'
      · rw [h']; exact hle
      · exact keyLe_trans hle (hh.1 r h')
    · rw [show insertByKey p (q :: t) = q :: insertByKey p t by simp [insertByKey, hle]]
      refine List.pairwise_cons.mpr ⟨fun r hr => ?_, ih hh.2⟩
      rcases mem_insertByKey hr with h' | h'
      · rw [h']
        rcases keyLe_total p.1 q.1 with h'' | h''
        · exact absurd h'' hle
        · exact h''
      · exact hh.1 r h'

theorem sorted_sortByKey {α : Type} (l : List (Key × α)) : sortedByKey (sortByKey l) := by
  induction l with
  | nil => simp [sortByKey, sortedByKey]
  | cons p t ih => exact sorted_insertByKey p ih

theorem alookup_perm {κ : Type} [DecidableEq κ] {α : Type} {l1 l2 : List (κ × α)}
    (hp : l1.Perm l2) (hn : nodupKeys l1) (k : κ) : alookup k l1 = alookup k l2 := by
  induction hp with
  | nil => rfl
  | cons p _ ih =>
    simp only [nodupKeys, keysOf_cons, List.nodup_cons] at hn
    by_cases h : p.1 = k
    · subst h; rw [alookup_cons_self, alookup_cons_self]
    · rw [alookup_cons_ne _ _ h, alookup_cons_ne _ _ h, ih hn.2]
  | swap x y l =>
    simp only [nodupKeys, keysOf_cons, List.nodup_cons, List.mem_cons] at hn
    by_cases hx : x.1 = k
    · subst hx
      have hy : y.1 ≠ x.1 := fun e => hn.1 (Or.inl e)
      rw [alookup_cons_ne y _ (fun e => hy e), alookup_cons_self, alookup_cons_self]
    · by_cases hy : y.1 = k
      · subst hy
        rw [alookup_cons_self, alookup_cons_ne x _ hx, alookup_cons_self]
      · rw [alookup_cons_ne y _ hy, alookup_cons_ne x _ hx,
          alookup_cons_ne x _ hx, alookup_cons_ne y _ hy]
  | trans h12 _ ih1 ih2 =>
    have hn2 : nodupKeys _ := ((h12.map Prod.fst).nodup_iff).mp hn
    rw [ih1 hn, ih2 hn2]

theorem nodupKeys_of_perm {κ : Type} {α : Type} {l1 l2 : List (κ × α)}
    (hp : l1.Perm l2) (hn : nodupKeys l1) : nodupKeys l2 :=
  ((hp.map Prod.fst).nodup_iff).mp hn

/-- A key-sorted association list without duplicate keys is determined by its
lookup function. -/
theorem sorted_eq_of_alookup_eq {α : Type} :
    ∀ l1 l2 : List (Key × α), sortedByKey l1 → nodupKeys l1 →
      sortedByKey l2 → nodupKeys l2 →
      (∀ k, alookup k l1 = alookup k l2) → l1 = l2
  | [], [], _, _, _, _, _ => rfl
  | [], p :: t, _, _, _, _, hl => by
    have := hl p.1
    rw [alookup_cons_self] at this
    exact absurd this.symm (by simp [alookup])
  | p :: t, [], _, _, _, _, hl => by
    have := hl p.1
    rw [alookup_cons_self] at this
    exact absurd this (by simp [alookup])
  | p1 :: t1, p2 :: t2, hs1, hn1, hs2, hn2, hl => by
    have hh1 := List.pairwise_cons.mp hs1
    have hh2 := List.pairwise_cons.mp hs2
    simp only [nodupKeys, keysOf_cons, List.nodup_cons] at hn1 hn2
    have hkeq : p1.1 = p2.1 := by
      by_contra hne
      have e1 : alookup p1.1 t2 = some p1.2 := by
        have := hl p1.1
        rw [alookup_cons_self, alookup_cons_ne p2 t2 (fun e => hne e.symm)] at this
        exact this.symm
      have e2 : alookup p2.1 t1 = some p2.2 := by
        have := hl p2.1
        rw [alookup_cons_self, alookup_cons_ne p1 t1 hne] at this
        exact this
      have m1 : p1.1 ∈ keysOf t2 := mem_keysOf_of_alookup e1
      have m2 : p2.1 ∈ keysOf t1 := mem_keysOf_of_alookup e2
      have le21 : keyLe p2.1 p1.1 = true := by
        rcases List.mem_map.mp m1 with ⟨q, hq, hqk⟩
        exact hqk ▸ hh2.1 q hq
      have le12 : keyLe p1.1 p2.1 = true := by
        rcases List.mem_map.mp m2 with ⟨q, hq, hqk⟩
        exact hqk ▸ hh1.1 q hq
      exact hne (eq_of_keyLe_of_keyLe le12 le21)
    have hveq : p1.2 = p2.2 := by
      have := hl p1.1
      rw [alookup_cons_self, hkeq, alookup_cons_self] at this
      exact Option.some.inj this
    have htl : ∀ k, alookup k t1 = alookup k t2 := by
      intro k
      by_cases hk : p1.1 = k
      · subst hk
        rw [alookup_eq_none_of_not_mem hn1.1,
          alookup_eq_none_of_not_mem (hkeq ▸ hn2.1)]
      · have := hl k
        rw [alookup_cons_ne p1 t1 hk, alookup_cons_ne p2 t2 (fun e => hk (hkeq ▸ e))]
          at this
        exact this
    have : t1 = t2 := sorted_eq_of_alookup_eq t1 t2 hh1.2 hn1.2 hh2.2 hn2.2 htl
    calc p1 :: t1 = (p1.1, p1.2) :: t1 := by rw [Prod.mk.eta]
      _ = (p2.1, p2.2) :: t2 := by rw [hkeq, hveq, this]
      _ = p2 :: t2 := by rw [Prod.mk.eta]

/-! ## Merkle tree (`src/store/merkle.rs`)

The Rust `MerkleTree` keeps a `leaf_map : HashMap<String, Vec<u8>>` from key
to leaf hash and rebuilds the tree from it after every mutation; the root is
determined by the leaf map alone, so the embedding tracks the leaf map and
computes the root hash directly (internal `MerkleNode`s only carry the hashes
the reduction below produces). -/

/-- `(len as u32).to_be_bytes()`: big-endian bytes of a length truncated
to 32 bits. -/
def u32be (n : Nat) : Bytes :=
  let m := n % 2 ^ 32
  [m / 2 ^ 24, m / 2 ^ 16 % 2 ^ 8, m / 2 ^ 8 % 2 ^ 8, m % 2 ^ 8]

/-- `encode_leaf`: `u32_be(|key|) ‖ key ‖ u32_be(|value|) ‖ value`. -/
def encode_leaf (key value : Bytes) : Bytes :=
  u32be key.length ++ key ++ u32be value.length ++ value

/-- `MerkleTree::compute_leaf_hash`: SHA-256 over the leaf encoding. -/
def compute_leaf_hash (H : Bytes → Bytes) (key value : Bytes) : Bytes :=
  H (encode_leaf key value)

/-- One pass of the bottom-up reduction in `rebuild`: `chunks(2)`, a full
chunk hashes to `H(left ‖ right)`, a trailing singleton is promoted. -/
def combineLevel (H : Bytes → Bytes) : List Bytes → List Bytes
  | [] => []
  | [x] => [x]
  | x :: y :: t => H (x ++ y) :: combineLevel H t

theorem combineLevel_length (H : Bytes → Bytes) :
    ∀ l : List Bytes, (combineLevel H l).length = (l.length + 1) / 2
  | [] => rfl
  | [_] => by simp [combineLevel]
  | _ :: _ :: t => by
    simp only [combineLevel, List.length_cons, combineLevel_length H t]
    omega

/-- The `while nodes.len() > 1` loop of `rebuild`. -/
def reduceLevels (H : Bytes → Bytes) (nodes : List Bytes) : List Bytes :=
  if _h : nodes.length ≤ 1 then nodes
  else reduceLevels H (combineLevel H nodes)
termination_by nodes.length
decreasing_by
  have := combineLevel_length H nodes
  omega

/-- `rebuild` followed by `get_root_hash`: `None` for an empty map, otherwise
the single hash surviving the reduction over the key-sorted leaf hashes. -/
def rebuildRoot (H : Bytes → Bytes) (leaf_map : List (Key × Bytes)) : Option Bytes :=
  if leaf_map.isEmpty then none
  else (reduceLevels H ((sortByKey leaf_map).map Prod.snd)).head?

/-- The leaf map a `MerkleTree` holds after inserting the entries of `kvs`:
`insert` stores `compute_leaf_hash(key, value)` under `key`. -/
def leafMapOf (H : Bytes → Bytes) (kvs : List (Key × Bytes)) : List (Key × Bytes) :=
  kvs.map (fun p => (p.1, compute_leaf_hash H p.1 p.2))

/-- A mutation of the key→value contents backing the tree:
`MerkleTree::insert` / `MerkleTree::remove`. -/
inductive TreeOp where
  | ins : Key → Bytes → TreeOp
  | del : Key → TreeOp

/-- Effect of one operation on the key→value contents (the `HashMap`
underneath `leaf_map`, with hashes recomputed from key and value). -/
def applyTreeOp (m : List (Key × Bytes)) : TreeOp → List (Key × Bytes)
  | .ins k v => assocSet k v m
  | .del k => assocDel k m

/-- Contents after a sequence of insert/remove operations on an empty tree. -/
def applyTreeOps (ops : List TreeOp) : List (Key × Bytes) :=
  ops.foldl applyTreeOp []

/-! ### Reference definition, from the specification text

"Leaf hash is SHA-256 of the length-prefixed encoding
`u32_be(|key|) ‖ key_bytes ‖ u32_be(|value|) ‖ value_bytes`. The tree is
constructed over leaves sorted ascending by key bytes; pairs of adjacent
nodes are combined as SHA-256(left ‖ right); on an odd count at any level
the last node is promoted unchanged. An empty set has no root." -/

/-- Spec reference: the leaf hash of one key/value pair. -/
def specLeafHash (H : Bytes → Bytes) (key value : Bytes) : Bytes :=
  H (u32be key.length ++ key ++ u32be value.length ++ value)

/-- Spec reference: combine adjacent pairs, promote the last node of an odd
level unchanged. -/
def specLevel (H : Bytes → Bytes) : List Bytes → List Bytes
  | a :: b :: rest => H (a ++ b) :: specLevel H rest
  | l => l

theorem specLevel_length (H : Bytes → Bytes) :
    ∀ l : List Bytes, (specLevel H l).length = (l.length + 1) / 2
  | [] => rfl
  | [_] => by simp [specLevel]
  | _ :: _ :: t => by
    simp only [specLevel, List.length_cons, specLevel_length H t]
    omega

/-- Spec reference: repeat level combination until one node remains; an empty
set has no root. -/
def specCombineAll (H : Bytes → Bytes) : List Bytes → Option Bytes
  | [] => none
  | [h] => some h
  | a :: b :: rest => specCombineAll H (specLevel H (a :: b :: rest))
termination_by l => l.length
decreasing_by
  rw [specLevel_length]
  simp only [List.length_cons]
  omega

/-- Spec reference: the Merkle root of a key→value set. -/
def specMerkleRoot (H : Bytes → Bytes) (kvs : List (Key × Bytes)) : Option Bytes :=
  specCombineAll H ((sortByKey kvs).map (fun p => specLeafHash H p.1 p.2))

theorem combineLevel_eq_specLevel (H : Bytes → Bytes) :
    ∀ l : List Bytes, combineLevel H l = specLevel H l
  | [] => rfl
  | [_] => rfl
  | _ :: _ :: t => by
    simp only [combineLevel, specLevel, combineLevel_eq_specLevel H t]

theorem head_reduceLevels_eq_specCombineAll (H : Bytes → Bytes) :
    ∀ l : List Bytes, (reduceLevels H l).head? = specCombineAll H l
  | [] => by simp [reduceLevels, specCombineAll]
  | [x] => by simp [reduceLevels, specCombineAll]
  | a :: b :: t => by
    rw [show reduceLevels H (a :: b :: t) =
      reduceLevels H (combineLevel H (a :: b :: t)) from by
        conv_lhs => rw [reduceLevels]
        exact dif_neg (by simp)]
    rw [show specCombineAll H (a :: b :: t) =
      specCombineAll H (specLevel H (a :: b :: t)) from by rw [specCombineAll]]
    rw [← combineLevel_eq_specLevel]
    exact head_reduceLevels_eq_specCombineAll H (combineLevel H (a :: b :: t))
termination_by l => l.length
decreasing_by
  rw [combineLevel_length]
  simp only [List.length_cons]
  omega

theorem insertByKey_map_snd {α β : Type} (f : Key × α → Key × β)
    (hf : ∀ p, (f p).1 = p.1) (p : Key × α) :
    ∀ l : List (Key × α), insertByKey (f p) (l.map f) = (insertByKey p l).map f
  | [] => rfl
  | q :: t => by
    by_cases h : keyLe p.1 q.1 = true
    · rw [show insertByKey p (q :: t) = p :: q :: t by simp [insertByKey, h]]
      simp [insertByKey, hf, h]
    · rw [show insertByKey p (q :: t) = q :: insertByKey p t by simp [insertByKey, h]]
      rw [List.map_cons, List.map_cons]
      rw [show insertByKey (f p) (f q :: t.map f) =
        f q :: insertByKey (f p) (t.map f) by simp [insertByKey, hf, h]]
      rw [insertByKey_map_snd f hf p t]

theorem sortByKey_map {α β : Type} (f : Key × α → Key × β)
    (hf : ∀ p, (f p).1 = p.1) :
    ∀ l : List (Key × α), sortByKey (l.map f) = (sortByKey l).map f
  | [] => rfl
  | p :: t => by
    show insertByKey (f p) (sortByKey (t.map f)) = _
    rw [sortByKey_map f hf t]
    exact insertByKey_map_snd f hf p (sortByKey t)

theorem keysOf_leafMapOf (H : Bytes → Bytes) (kvs : List (Key × Bytes)) :
    keysOf (leafMapOf H kvs) = keysOf kvs := by
  induction kvs with
  | nil => rfl
  | cons p t ih =>
    show p.1 :: keysOf (leafMapOf H t) = p.1 :: keysOf t
    rw [ih]

theorem alookup_leafMapOf (H : Bytes → Bytes) (k : Key) (kvs : List (Key × Bytes)) :
    alookup k (leafMapOf H kvs) =
      (alookup k kvs).map (fun v => compute_leaf_hash H k v) := by
  induction kvs with
  | nil => rfl
  | cons p t ih =>
    by_cases h : p.1 = k
    · subst h
      rw [show leafMapOf H (p :: t) =
        (p.1, compute_leaf_hash H p.1 p.2) :: leafMapOf H t from rfl]
      rw [show alookup p.1 ((p.1, compute_leaf_hash H p.1 p.2) :: leafMapOf H t) =
        some (compute_leaf_hash H p.1 p.2) from alookup_cons_self _ _]
      rw [alookup_cons_self]
      rfl
    · rw [show leafMapOf H (p :: t) =
        (p.1, compute_leaf_hash H p.1 p.2) :: leafMapOf H t from rfl]
      rw [alookup_cons_ne _ _ (show ((p.1, compute_leaf_hash H p.1 p.2)).1 ≠ k from h),
        alookup_cons_ne _ _ h, ih]

theorem nodupKeys_applyTreeOps (ops : List TreeOp) : nodupKeys (applyTreeOps ops) := by
  have base : ∀ m, nodupKeys m → ∀ rest : List TreeOp,
      nodupKeys (rest.foldl applyTreeOp m) := by
    intro m hm rest
    induction rest generalizing m with
    | nil => exact hm
    | cons o t ih =>
      cases o with
      | ins k v => exact ih _ (nodupKeys_assocSet k v hm)
      | del k => exact ih _ (nodupKeys_assocDel k hm)
  exact base [] List.Pairwise.nil ops

/-! ## Claims C1 and C2: the Merkle root -/

/-- **C1.** The Merkle root computed by `rebuild` equals the reference
definition from the specification: each leaf hash is SHA-256 of
`u32_be(|key|) ‖ key ‖ u32_be(|value|) ‖ value`, the tree is built over the
leaves sorted ascending by key bytes, adjacent pairs combine as
`SHA-256(left ‖ right)`, an odd level promotes its last node unchanged, and
the empty map has no root. Stated for every hash function `H` in place of
SHA-256, both sides using the same `H`. -/
theorem merkle_root_matches_reference (H : Bytes → Bytes) :
    (∀ kvs : List (Key × Bytes),
      rebuildRoot H (leafMapOf H kvs) = specMerkleRoot H kvs) ∧
    rebuildRoot H (leafMapOf H []) = none := by
  have main : ∀ kvs : List (Key × Bytes),
      rebuildRoot H (leafMapOf H kvs) = specMerkleRoot H kvs := by
    intro kvs
    cases kvs with
    | nil => simp [rebuildRoot, leafMapOf, specMerkleRoot, sortByKey, specCombineAll]
    | cons p t =>
      rw [rebuildRoot, if_neg (by simp [leafMapOf])]
      rw [head_reduceLevels_eq_specCombineAll]
      rw [specMerkleRoot]
      rw [show leafMapOf H (p :: t) =
        (p :: t).map (fun q => (q.1, compute_leaf_hash H q.1 q.2)) from rfl]
      rw [sortByKey_map (fun q => (q.1, compute_leaf_hash H q.1 q.2)) (fun _ => rfl)]
      rw [List.map_map]
      rfl
  exact ⟨main, rfl⟩

/-- **C2.** The Merkle root is a pure function of the key→value contents:
two insert/remove histories that leave the same contents (pointwise equal
lookups) produce bitwise-equal roots, independent of operation order. -/
theorem merkle_root_content_determined (H : Bytes → Bytes)
    (ops1 ops2 : List TreeOp)
    (hsame : ∀ k, alookup k (applyTreeOps ops1) = alookup k (applyTreeOps ops2)) :
    rebuildRoot H (leafMapOf H (applyTreeOps ops1)) =
      rebuildRoot H (leafMapOf H (applyTreeOps ops2)) := by
  have hn1 : nodupKeys (applyTreeOps ops1) := nodupKeys_applyTreeOps ops1
  have hn2 : nodupKeys (applyTreeOps ops2) := nodupKeys_applyTreeOps ops2
  have hln1 : nodupKeys (leafMapOf H (applyTreeOps ops1)) := by
    show (keysOf (leafMapOf H (applyTreeOps ops1))).Nodup
    rw [keysOf_leafMapOf]; exact hn1
  have hln2 : nodupKeys (leafMapOf H (applyTreeOps ops2)) := by
    show (keysOf (leafMapOf H (applyTreeOps ops2))).Nodup
    rw [keysOf_leafMapOf]; exact hn2
  have hlook : ∀ k, alookup k (leafMapOf H (applyTreeOps ops1)) =
      alookup k (leafMapOf H (applyTreeOps ops2)) := by
    intro k
    rw [alookup_leafMapOf, alookup_leafMapOf, hsame k]
  have hsorteq : sortByKey (leafMapOf H (applyTreeOps ops1)) =
      sortByKey (leafMapOf H (applyTreeOps ops2)) := by
    apply sorted_eq_of_alookup_eq
    · exact sorted_sortByKey _
    · exact nodupKeys_of_perm (perm_sortByKey _).symm hln1
    · exact sorted_sortByKey _
    · exact nodupKeys_of_perm (perm_sortByKey _).symm hln2
    · intro k
      rw [alookup_perm (perm_sortByKey _) (nodupKeys_of_perm (perm_sortByKey _).symm hln1) k,
        alookup_perm (perm_sortByKey _) (nodupKeys_of_perm (perm_sortByKey _).symm hln2) k]
      exact hlook k
  have hlen : (leafMapOf H (applyTreeOps ops1)).length =
      (leafMapOf H (applyTreeOps ops2)).length := by
    rw [← (perm_sortByKey (leafMapOf H (applyTreeOps ops1))).length_eq,
      ← (perm_sortByKey (leafMapOf H (applyTreeOps ops2))).length_eq, hsorteq]
  have hie : (leafMapOf H (applyTreeOps ops1)).isEmpty =
      (leafMapOf H (applyTreeOps ops2)).isEmpty := by
    cases e1 : leafMapOf H (applyTreeOps ops1) with
    | nil =>
      cases e2 : leafMapOf H (applyTreeOps ops2) with
      | nil => rfl
      | cons q t2 => rw [e1, e2] at hlen; simp at hlen
    | cons q t1 =>
      cases e2 : leafMapOf H (applyTreeOps ops2) with
      | nil => rw [e1, e2] at hlen; simp at hlen
      | cons r t2 => rfl
  rw [rebuildRoot, rebuildRoot, hsorteq, hie]

/-- Closed witness for `merkle_root_content_determined`: two different
histories (a plain insert versus an overwritten insert) with equal final
contents yield the same root, instantiated with a concrete hash. -/
theorem merkle_root_content_determined_witness :
    rebuildRoot (fun b => [b.length % 256]) (leafMapOf (fun b => [b.length % 256])
      (applyTreeOps [TreeOp.ins [1] [2]])) =
    rebuildRoot (fun b => [b.length % 256]) (leafMapOf (fun b => [b.length % 256])
      (applyTreeOps [TreeOp.ins [1] [3], TreeOp.ins [1] [2]])) :=
  merkle_root_content_determined (fun b => [b.length % 256])
    [TreeOp.ins [1] [2]] [TreeOp.ins [1] [3], TreeOp.ins [1] [2]]
    (fun _ => rfl)

/-! ## Claim C9: `diff_keys` -/

/-- `MerkleTree::diff_keys`: iterate the union of the key sets (the
`BTreeSet` enumerates each key once; order is immaterial to the claim) and
keep exactly the keys whose leaf-hash lookups disagree. -/
def diff_keys (a b : List (Key × Bytes)) : List Key :=
  ((keysOf a ++ keysOf b).dedup).filter
    (fun k => decide (alookup k a ≠ alookup k b))

/-- **C9.** `diff_keys` returns exactly the keys on which the two leaf maps
disagree: a key is reported iff it is present in only one of the two
indexes, or present in both with different leaf hashes. -/
theorem diff_keys_exact (a b : List (Key × Bytes)) (k : Key) :
    k ∈ diff_keys a b ↔
      (alookup k a = none ∧ (∃ h2, alookup k b = some h2)) ∨
      ((∃ h1, alookup k a = some h1) ∧ alookup k b = none) ∨
      (∃ h1 h2, alookup k a = some h1 ∧ alookup k b = some h2 ∧ h1 ≠ h2) := by
  rw [diff_keys, List.mem_filter]
  constructor
  · rintro ⟨_, hne⟩
    rw [decide_eq_true_iff] at hne
    cases ha : alookup k a with
    | none =>
      cases hb : alookup k b with
      | none => exact absurd (ha.trans hb.symm) hne
      | some h2 => exact Or.inl ⟨rfl, ⟨h2, rfl⟩⟩
    | some h1 =>
      cases hb : alookup k b with
      | none => exact Or.inr (Or.inl ⟨⟨h1, rfl⟩, rfl⟩)
      | some h2 =>
        refine Or.inr (Or.inr ⟨h1, h2, rfl, rfl, fun he => hne ?_⟩)
        rw [ha, hb, he]
  · intro hcase
    have hne : alookup k a ≠ alookup k b := by
      rcases hcase with ⟨ha, w, hb⟩ | ⟨⟨w, ha⟩, hb⟩ | ⟨w1, w2, ha, hb, hw⟩
      · rw [ha, hb]; exact fun e => Option.noConfusion e
      · rw [ha, hb]; exact fun e => Option.noConfusion e
      · rw [ha, hb]; exact fun e => hw (Option.some.inj e)
    refine ⟨List.mem_dedup.mpr ?_, decide_eq_true_iff.mpr hne⟩
    rw [List.mem_append]
    rcases hcase with ⟨_, w, hb⟩ | ⟨⟨w, ha⟩, _⟩ | ⟨w1, _, ha, _, _⟩
    · exact Or.inr (mem_keysOf_of_alookup hb)
    · exact Or.inl (mem_keysOf_of_alookup ha)
    · exact Or.inl (mem_keysOf_of_alookup ha)

/-! ## Replication applier (`src/replication.rs`, `start_replication_handler`)

The handler keeps a dedupe set of 128-bit operation ids, a per-key
last-applied-timestamp map and the store. For each received event it skips
self-originated events, already-seen `op_id`s and events older than the
recorded timestamp for the key, and otherwise applies the event (delete for
`del`, otherwise write the event value decoded as UTF-8 text or a base64
fallback) and records `ts` and `op_id`. The byte decoding
`String::from_utf8(..).unwrap_or_else(base64)` is kept abstract as a
parameter `decode`. Unused wire fields (`v`, `prev`, `ttl`) are omitted. -/

/-- `OpKind` from `src/change_event.rs`. -/
inductive OpKind where
  | set | del | incr | decr | append | prepend
deriving DecidableEq, Repr

/-- The fields of `ChangeEvent` the applier reads. -/
structure ChangeEvent where
  op : OpKind
  key : String
  val : Option Bytes
  ts : Nat
  src : String
  op_id : List Nat
deriving DecidableEq, Repr

/-- Mutable state of the replication handler task. -/
structure ApplierState where
  seen : List (List Nat)
  last_ts : List (String × Nat)
  store : List (String × String)
deriving DecidableEq, Repr

/-- One iteration of the handler loop on a received event. -/
def applyEvent (decode : Bytes → String) (node_id : String)
    (st : ApplierState) (ev : ChangeEvent) : ApplierState :=
  if ev.src = node_id then st
  else if ev.op_id ∈ st.seen then st
  else
    let current_ts := (alookup ev.key st.last_ts).getD 0
    if ev.ts < current_ts then st
    else
      let store' :=
        match ev.op with
        | OpKind.del => assocDel ev.key st.store
        | _ =>
          match ev.val with
          | some bytes => assocSet ev.key (decode bytes) st.store
          | none => st.store
      { seen := ev.op_id :: st.seen,
        last_ts := assocSet ev.key ev.ts st.last_ts,
        store := store' }

/-- Processing a sequence of received events. -/
def applyEvents (decode : Bytes → String) (node_id : String)
    (st : ApplierState) (evs : List ChangeEvent) : ApplierState :=
  evs.foldl (applyEvent decode node_id) st

theorem applyEvent_of_seen (decode : Bytes → String) (node_id : String)
    (st : ApplierState) (ev : ChangeEvent) (h : ev.op_id ∈ st.seen) :
    applyEvent decode node_id st ev = st := by
  rw [applyEvent]
  by_cases hs : ev.src = node_id
  · rw [if_pos hs]
  · rw [if_neg hs, if_pos h]

theorem applyEvent_of_stale (decode : Bytes → String) (node_id : String)
    (st : ApplierState) (ev : ChangeEvent) (t : Nat)
    (hl : alookup ev.key st.last_ts = some t) (hts : ev.ts < t) :
    applyEvent decode node_id st ev = st := by
  rw [applyEvent]
  by_cases hs : ev.src = node_id
  · rw [if_pos hs]
  · rw [if_neg hs]
    by_cases hseen : ev.op_id ∈ st.seen
    · rw [if_pos hseen]
    · rw [if_neg hseen]
      simp only [hl, Option.getD_some]
      rw [if_pos hts]

theorem applyEvent_idem (decode : Bytes → String) (node_id : String)
    (st : ApplierState) (ev : ChangeEvent) :
    applyEvent decode node_id (applyEvent decode node_id st ev) ev =
      applyEvent decode node_id st ev := by
  by_cases hs : ev.src = node_id
  · rw [show applyEvent decode node_id st ev = st from by rw [applyEvent, if_pos hs],
      applyEvent, if_pos hs]
  · by_cases hseen : ev.op_id ∈ st.seen
    · rw [applyEvent_of_seen _ _ _ _ hseen, applyEvent_of_seen _ _ _ _ hseen]
    · by_cases hts : ev.ts < (alookup ev.key st.last_ts).getD 0
      · have hfix : applyEvent decode node_id st ev = st := by
          rw [applyEvent, if_neg hs, if_neg hseen, if_pos hts]
        rw [hfix, hfix]
      · have hstep : applyEvent decode node_id st ev =
            { seen := ev.op_id :: st.seen,
              last_ts := assocSet ev.key ev.ts st.last_ts,
              store :=
                match ev.op with
                | OpKind.del => assocDel ev.key st.store
                | _ =>
                  match ev.val with
                  | some bytes => assocSet ev.key (decode bytes) st.store
                  | none => st.store } := by
          rw [applyEvent, if_neg hs, if_neg hseen, if_neg hts]
        rw [hstep]
        exact applyEvent_of_seen _ _ _ _ (List.mem_cons_self _ _)

/-! ## Claims C3 and C4: conflict resolution and dropped events -/

/-- **C4.** Dropped events leave the state unchanged: an event whose `op_id`
is in the seen set is a no-op; consequently applying any event `n + 1` times
equals applying it once; and an event whose `ts` is strictly below the
recorded last-applied timestamp of its key is a no-op. -/
theorem replication_dropped_events_noop :
    (∀ (decode : Bytes → String) (node_id : String) (st : ApplierState)
      (ev : ChangeEvent), ev.op_id ∈ st.seen →
        applyEvent decode node_id st ev = st) ∧
    (∀ (decode : Bytes → String) (node_id : String) (st : ApplierState)
      (ev : ChangeEvent) (n : Nat),
        (fun s => applyEvent decode node_id s ev)^[n + 1] st =
          applyEvent decode node_id st ev) ∧
    (∀ (decode : Bytes → String) (node_id : String) (st : ApplierState)
      (ev : ChangeEvent) (t : Nat), alookup ev.key st.last_ts = some t →
        ev.ts < t → applyEvent decode node_id st ev = st) := by
  refine ⟨applyEvent_of_seen, fun decode node_id st ev n => ?_,
    applyEvent_of_stale⟩
  induction n with
  | zero => rw [Function.iterate_one]
  | succ m ih =>
    rw [Function.iterate_succ_apply', ih]
    exact applyEvent_idem decode node_id st ev

/-- Closed witness for `replication_dropped_events_noop`, applying each
conjunct at concrete inputs that satisfy its hypotheses. -/
theorem replication_dropped_events_noop_witness :
    (applyEvent (fun _ => "x") "me"
      { seen := [[7]], last_ts := [], store := [] }
      { op := OpKind.set, key := "k", val := some [65], ts := 9, src := "a",
        op_id := [7] } =
      { seen := [[7]], last_ts := [], store := [] }) ∧
    ((fun s => applyEvent (fun _ => "x") "me" s
      { op := OpKind.set, key := "k", val := some [65], ts := 9, src := "a",
        op_id := [7] })^[3]
      { seen := [], last_ts := [], store := [] } =
      applyEvent (fun _ => "x") "me"
        { seen := [], last_ts := [], store := [] }
        { op := OpKind.set, key := "k", val := some [65], ts := 9, src := "a",
          op_id := [7] }) ∧
    (applyEvent (fun _ => "x") "me"
      { seen := [], last_ts := [("k", 5)], store := [("k", "old")] }
      { op := OpKind.set, key := "k", val := some [65], ts := 4, src := "a",
        op_id := [7] } =
      { seen := [], last_ts := [("k", 5)], store := [("k", "old")] }) := by
  refine ⟨?_, ?_, ?_⟩
  · exact replication_dropped_events_noop.1 _ _ _ _ (by decide)
  · exact replication_dropped_events_noop.2.1 (fun _ => "x") "me" _ _ 2
  · exact replication_dropped_events_noop.2.2 _ _ _ _ 5 (by decide) (by decide)

/-- **C3 evaluation (code bug).** At `ts == t_prev` the applier accepts any
event (the check is only `ts < t_prev`), so the last-processed event wins
regardless of `op_id`. With two events of equal timestamp on one key, where
`e1` has the lexicographically greater `op_id`, processing `[e1, e2]` stores
the value of `e2` — the spec (and the repo's own test
`same_timestamp_tie_break_by_op_id`) requires the value of `e1` — while
processing `[e2, e1]` stores the value of `e1`. -/
theorem replication_equal_ts_order_decides :
    (keyLt [1] [2] = true) ∧
    (alookup "k"
      (applyEvents (fun b => if b = [65] then "A" else "B") "me"
        { seen := [], last_ts := [], store := [] }
        [{ op := OpKind.set, key := "k", val := some [65], ts := 500,
            src := "n1", op_id := [2] },
          { op := OpKind.set, key := "k", val := some [66], ts := 500,
            src := "n2", op_id := [1] }]).store = some "B") ∧
    (alookup "k"
      (applyEvents (fun b => if b = [65] then "A" else "B") "me"
        { seen := [], last_ts := [], store := [] }
        [{ op := OpKind.set, key := "k", val := some [66], ts := 500,
            src := "n2", op_id := [1] },
          { op := OpKind.set, key := "k", val := some [65], ts := 500,
            src := "n1", op_id := [2] }]).store = some "A") := by
  refine ⟨by decide, ?_, ?_⟩ <;>
    simp [applyEvents, applyEvent, alookup, assocSet, List.foldl]

/-! ## Anti-entropy leaf reconcile (`src/sync.rs`, `reconcile_leaf`)

`reconcile_leaf` scans the peer for keys under a prefix, issues a `GET` for
each (the per-key responses form `remoteGet`), writes fetched values locally,
deletes a key locally when its `GET` answered not-found, then deletes every
local key under the prefix that is not in the remote key set. Iteration
order over the fetched map only permutes independent per-key writes, so the
first pass is folded in remote-key order. -/

/-- Rust `str::starts_with` on strings, as the prefix relation on the
character sequence (UTF-8 is a prefix code, so this coincides with the byte
prefix relation Rust checks). -/
def strIsPrefixOf (p s : String) : Bool := p.data.isPrefixOf s.data

/-- `scan` of the KV engines: all keys for the empty prefix, otherwise the
keys `k` with `k.starts_with(prefix)`. -/
def scanKeys (store : List (String × String)) (pre : String) : List String :=
  if pre = "" then keysOf store
  else (keysOf store).filter (fun k => strIsPrefixOf pre k)

/-- First pass of `reconcile_leaf` over the fetched remote map. -/
def applyRemote (remoteGet : String → Option String)
    (store : List (String × String)) (ks : List String) :
    List (String × String) :=
  ks.foldl (fun st k =>
    match remoteGet k with
    | some v => assocSet k v st
    | none => assocDel k st) store

/-- Second pass: delete local keys under the prefix absent from the remote
key set. -/
def deleteLocalExtras (remoteKeys : List String) (pre : String)
    (store : List (String × String)) : List (String × String) :=
  (scanKeys store pre).foldl
    (fun st lk => if lk ∈ remoteKeys then st else assocDel lk st) store

/-- `SyncManager::reconcile_leaf` on the local store. -/
def reconcile_leaf (store : List (String × String)) (remoteKeys : List String)
    (remoteGet : String → Option String) (pre : String) :
    List (String × String) :=
  deleteLocalExtras remoteKeys pre (applyRemote remoteGet store remoteKeys)

theorem empty_strIsPrefixOf (k : String) : strIsPrefixOf "" k = true := by
  rw [strIsPrefixOf, show "".data = [] from rfl]
  cases k.data <;> rfl

theorem mem_scanKeys {st : List (String × String)} {pre k : String} :
    k ∈ scanKeys st pre ↔ k ∈ keysOf st ∧ strIsPrefixOf pre k = true := by
  rw [scanKeys]
  by_cases hp : pre = ""
  · rw [if_pos hp]
    subst hp
    exact ⟨fun h => ⟨h, empty_strIsPrefixOf k⟩, fun h => h.1⟩
  · rw [if_neg hp, List.mem_filter]

theorem alookup_applyRemote (g : String → Option String) :
    ∀ (ks : List String) (store : List (String × String)) (k : String),
      alookup k (applyRemote g store ks) =
        if k ∈ ks then g k else alookup k store
  | [], store, k => by simp [applyRemote]
  | k' :: t, store, k => by
    rw [show applyRemote g store (k' :: t) =
      applyRemote g (match g k' with
        | some v => assocSet k' v store
        | none => assocDel k' store) t from rfl]
    rw [alookup_applyRemote g t _ k]
    by_cases hmem : k ∈ t
    · rw [if_pos hmem, if_pos (List.mem_cons_of_mem _ hmem)]
    · rw [if_neg hmem]
      by_cases hk : k' = k
      · subst hk
        rw [if_pos (List.mem_cons_self _ _)]
        cases hg : g k' with
        | some v => simp [hg, alookup_assocSet]
        | none => simp [hg, alookup_assocDel]
      · have hnc : ¬ k ∈ (k' :: t) := by
          rw [List.mem_cons]
          push_neg
          exact ⟨fun e => hk e.symm, hmem⟩
        rw [if_neg hnc]
        cases hg : g k' with
        | some v => simp [hg, alookup_assocSet, hk]
        | none => simp [hg, alookup_assocDel, hk]

theorem alookup_deletePass (rk : List String) :
    ∀ (L : List String) (store : List (String × String)) (k : String),
      alookup k (L.foldl
        (fun st lk => if lk ∈ rk then st else assocDel lk st) store) =
        if k ∈ L ∧ k ∉ rk then none else alookup k store
  | [], store, k => by simp
  | lk :: t, store, k => by
    rw [List.foldl_cons, alookup_deletePass rk t _ k]
    by_cases hmem : k ∈ t ∧ k ∉ rk
    · rw [if_pos hmem, if_pos ⟨List.mem_cons_of_mem _ hmem.1, hmem.2⟩]
    · rw [if_neg hmem]
      by_cases hlk : lk ∈ rk
      · rw [if_pos hlk]
        by_cases hk : k = lk
        · subst hk
          rw [if_neg (fun hc => hc.2 hlk)]
        · rw [if_neg (fun hc =>
            hmem ⟨(List.mem_cons.mp hc.1).resolve_left hk, hc.2⟩)]
      · rw [if_neg hlk, alookup_assocDel]
        by_cases hk : lk = k
        · subst hk
          rw [if_pos rfl, if_pos ⟨List.mem_cons_self _ _, hlk⟩]
        · rw [if_neg hk,
            if_neg (fun hc => hmem
              ⟨(List.mem_cons.mp hc.1).resolve_left (fun e => hk e.symm), hc.2⟩)]

/-! ## Claim C5: leaf reconcile -/

/-- **C5 counterexample.** A remote `GET` answering not-found is not
ignored: with the key `a` present locally, in the remote key set, and
fetching to not-found, `reconcile_leaf` deletes `a` instead of leaving it
as `x`. -/
theorem reconcile_not_found_deletes_counterexample :
    alookup "a" (reconcile_leaf [("a", "x")] ["a"] (fun _ => none) "") ≠
      some "x" := by
  decide

/-- **C5 amended.** After `reconcile_leaf` for prefix `p`: every key in the
remote key set holds exactly what the peer's `GET` returned — a fetched
value overwrites, a not-found response deletes the local entry (the claim
said it is ignored); every other local key under `p` is deleted; keys
outside both are untouched. In particular, when every `GET` returns a
value, the local store under `p` equals the fetched remote map. -/
theorem reconcile_leaf_final_lookup (store : List (String × String))
    (remoteKeys : List String) (remoteGet : String → Option String)
    (pre : String) (k : String) :
    alookup k (reconcile_leaf store remoteKeys remoteGet pre) =
      if k ∈ remoteKeys then remoteGet k
      else if strIsPrefixOf pre k then none
      else alookup k store := by
  rw [reconcile_leaf, deleteLocalExtras, alookup_deletePass, alookup_applyRemote]
  by_cases hrk : k ∈ remoteKeys
  · simp [hrk]
  · by_cases hpre : strIsPrefixOf pre k = true
    · by_cases hmem : k ∈ keysOf (applyRemote remoteGet store remoteKeys)
      · simp [hrk, hpre, mem_scanKeys, hmem]
      · have h0 : alookup k (applyRemote remoteGet store remoteKeys) = none :=
          alookup_eq_none_of_not_mem hmem
        rw [alookup_applyRemote, if_neg hrk] at h0
        simp [hrk, hpre, mem_scanKeys, hmem, h0]
    · simp [hrk, hpre, mem_scanKeys]

/-! ## Server command handling (`src/server.rs`, `handle_connection`)

Responses are modelled as the CRLF-separated lines they print. -/

/-- The line `handle_connection` pushes for one `MGET` key: `"<k> <v>"` for
a present key, `"<k> NOT_FOUND"` for an absent one. -/
def mgetLine (store : List (String × String)) (k : String) : String :=
  match alookup k store with
  | some v => k ++ " " ++ v
  | none => k ++ " NOT_FOUND"

/-- `found_count`: how many of the requested keys are present. -/
def foundCount (store : List (String × String)) (ks : List String) : Nat :=
  (ks.filter (fun k => (alookup k store).isSome)).length

/-- The whole `MGET` response: header plus one line per requested key if any
key was found, plain `NOT_FOUND` otherwise. -/
def mgetResponse (store : List (String × String)) (ks : List String) :
    List String :=
  if 0 < foundCount store ks then
    ("VALUES " ++ toString (foundCount store ks)) :: ks.map (mgetLine store)
  else ["NOT_FOUND"]

/-- `RwLockEngine::append`: concatenate onto a present value, create the key
with the operand otherwise; returns the resulting value. -/
def engineAppend (data : List (String × String)) (key value : String) :
    String × List (String × String) :=
  match alookup key data with
  | some current_value =>
    let new_value := current_value ++ value
    (new_value, assocSet key new_value data)
  | none => (value, assocSet key value data)

/-- `RwLockEngine::prepend`. -/
def enginePrepend (data : List (String × String)) (key value : String) :
    String × List (String × String) :=
  match alookup key data with
  | some current_value =>
    let new_value := value ++ current_value
    (new_value, assocSet key new_value data)
  | none => (value, assocSet key value data)

/-- `Command::Append` dispatch in `handle_connection`: an empty operand only
reads (an error if the key is absent); an absent key is created with the
operand via `set`; otherwise the engine appends. Returns the response line
and the resulting store. -/
def serverAppend (store : List (String × String)) (key value : String) :
    String × List (String × String) :=
  if value = "" then
    match alookup key store with
    | some current_value => ("VALUE " ++ current_value, store)
    | none => ("ERROR Key not found", store)
  else
    match alookup key store with
    | none => ("VALUE " ++ value, assocSet key value store)
    | some _ =>
      let r := engineAppend store key value
      ("VALUE " ++ r.1, r.2)

/-- `Command::Prepend` dispatch in `handle_connection`. -/
def serverPrepend (store : List (String × String)) (key value : String) :
    String × List (String × String) :=
  if value = "" then
    match alookup key store with
    | some current_value => ("VALUE " ++ current_value, store)
    | none => ("ERROR Key not found", store)
  else
    match alookup key store with
    | none => ("VALUE " ++ value, assocSet key value store)
    | some _ =>
      let r := enginePrepend store key value
      ("VALUE " ++ r.1, r.2)

/-! ## Claim C6: MGET response -/

/-- **C6 counterexample.** With `a` present and `b` absent, the response has
a line for the absent key too: it is `VALUES 1` followed by two lines, not
by exactly `m = 1` lines of the form `<k> <v>`. -/
theorem mget_not_found_lines_counterexample :
    mgetResponse [("a", "va")] ["a", "b"] =
      ["VALUES 1", "a va", "b NOT_FOUND"] ∧
    (mgetResponse [("a", "va")] ["a", "b"]).length ≠
      1 + foundCount [("a", "va")] ["a", "b"] := by
  refine ⟨by decide, by decide⟩

/-- **C6 amended.** If at least one requested key is present the response is
the header `VALUES <m>` (`m` the number of present keys) followed by one
line per requested key — `"<k> <v>"` when `k` is present with value `v` and
`"<k> NOT_FOUND"` when absent; if no key is present the response is
`NOT_FOUND`. -/
theorem mget_response_shape (store : List (String × String)) (ks : List String) :
    (0 < foundCount store ks →
      mgetResponse store ks =
        ("VALUES " ++ toString (foundCount store ks)) :: ks.map (mgetLine store) ∧
      (mgetResponse store ks).length = 1 + ks.length ∧
      (∀ k v, alookup k store = some v → mgetLine store k = k ++ " " ++ v) ∧
      (∀ k, alookup k store = none → mgetLine store k = k ++ " NOT_FOUND")) ∧
    (foundCount store ks = 0 → mgetResponse store ks = ["NOT_FOUND"]) := by
  constructor
  · intro h
    refine ⟨by rw [mgetResponse, if_pos h], ?_, ?_, ?_⟩
    · rw [mgetResponse, if_pos h]
      simp [Nat.add_comm]
    · intro k v hv
      rw [mgetLine, hv]
    · intro k hv
      rw [mgetLine, hv]
  · intro h
    rw [mgetResponse, if_neg (by omega)]

/-- Closed witness for `mget_response_shape` at concrete stores. -/
theorem mget_response_shape_witness :
    mgetResponse [("a", "va")] ["a", "b"] =
      ("VALUES " ++ toString (foundCount [("a", "va")] ["a", "b"])) ::
        ["a", "b"].map (mgetLine [("a", "va")]) ∧
    mgetResponse [("b", "x")] ["a"] = ["NOT_FOUND"] :=
  ⟨((mget_response_shape [("a", "va")] ["a", "b"]).1 (by decide)).1,
    (mget_response_shape [("b", "x")] ["a"]).2 (by decide)⟩

/-! ## Claim C7: APPEND / PREPEND -/

/-- **C7 counterexample.** `APPEND` (and `PREPEND`) with an empty operand on
an absent key does not create the key and does not return a value: the
server answers `ERROR Key not found` and leaves the store empty. -/
theorem append_empty_operand_counterexample :
    alookup "k" (serverAppend [] "k" "").2 ≠ some "" ∧
    (serverAppend [] "k" "").1 = "ERROR Key not found" ∧
    (serverAppend [] "k" "").2 = [] ∧
    (serverPrepend [] "k" "").1 = "ERROR Key not found" := by
  refine ⟨by decide, by decide, by decide, by decide⟩

/-- **C7 amended.** `APPEND`/`PREPEND` with a non-empty operand on an absent
key create the key with the operand and return it; an empty operand never
mutates the store and reads the current value when the key is present, but
on an absent key it answers `ERROR Key not found` (rather than creating the
key or returning a value); on a present key with a non-empty operand the
result is the concatenation `value‖operand` resp. `operand‖value`. -/
theorem append_prepend_semantics (store : List (String × String))
    (key value : String) :
    (alookup key store = none → value ≠ "" →
      serverAppend store key value =
        ("VALUE " ++ value, assocSet key value store) ∧
      serverPrepend store key value =
        ("VALUE " ++ value, assocSet key value store)) ∧
    (value = "" →
      (serverAppend store key value).2 = store ∧
      (serverPrepend store key value).2 = store ∧
      (∀ cv, alookup key store = some cv →
        (serverAppend store key value).1 = "VALUE " ++ cv ∧
        (serverPrepend store key value).1 = "VALUE " ++ cv) ∧
      (alookup key store = none →
        (serverAppend store key value).1 = "ERROR Key not found" ∧
        (serverPrepend store key value).1 = "ERROR Key not found")) ∧
    (∀ cv, alookup key store = some cv → value ≠ "" →
      serverAppend store key value =
        ("VALUE " ++ (cv ++ value), assocSet key (cv ++ value) store) ∧
      serverPrepend store key value =
        ("VALUE " ++ (value ++ cv), assocSet key (value ++ cv) store)) := by
  refine ⟨fun habs hne => ?_, fun hemp => ?_, fun cv hcv hne => ?_⟩
  · rw [serverAppend, serverPrepend, if_neg hne, if_neg hne, habs]
    exact ⟨rfl, rfl⟩
  · subst hemp
    rw [serverAppend, serverPrepend, if_pos rfl, if_pos rfl]
    cases hv : alookup key store with
    | some cv =>
      refine ⟨rfl, rfl, fun cv2 hcv2 => ?_, fun hn => Option.noConfusion hn⟩
      have he : cv = cv2 := Option.some.inj hcv2
      subst he
      exact ⟨rfl, rfl⟩
    | none =>
      exact ⟨rfl, rfl, fun cv2 hcv2 => Option.noConfusion hcv2,
        fun _ => ⟨rfl, rfl⟩⟩
  · rw [serverAppend, serverPrepend, if_neg hne, if_neg hne, hcv,
      engineAppend, enginePrepend, hcv]
    exact ⟨rfl, rfl⟩

/-- Closed witness for `append_prepend_semantics`, applying each conjunct at
concrete inputs. -/
theorem append_prepend_semantics_witness :
    (serverAppend [] "k" "x" = ("VALUE " ++ "x", assocSet "k" "x" []) ∧
      serverPrepend [] "k" "x" = ("VALUE " ++ "x", assocSet "k" "x" [])) ∧
    ((serverAppend [("k", "v")] "k" "").2 = [("k", "v")] ∧
      (serverAppend [("k", "v")] "k" "").1 = "VALUE " ++ "v") ∧
    (serverAppend [("k", "v")] "k" "x" =
        ("VALUE " ++ ("v" ++ "x"), assocSet "k" ("v" ++ "x") [("k", "v")]) ∧
      serverPrepend [("k", "v")] "k" "x" =
        ("VALUE " ++ ("x" ++ "v"), assocSet "k" ("x" ++ "v") [("k", "v")])) := by
  refine ⟨(append_prepend_semantics [] "k" "x").1 (by decide) (by decide), ?_, ?_⟩
  · have h := (append_prepend_semantics [("k", "v")] "k" "").2.1 rfl
    exact ⟨h.1, (h.2.2.1 "v" (by decide)).1⟩
  · exact (append_prepend_semantics [("k", "v")] "k" "x").2.2 "v" (by decide)
      (by decide)

/-! ## Numeric operations (`src/store/rwlock_engine.rs`) -/

/-- Rust `str::parse::<i64>`: an optional sign, then one or more ASCII
digits, and the value must fit the signed 64-bit range; anything else
fails. -/
def parseI64 (s : String) : Option Int :=
  match s.data with
  | [] => none
  | c :: cs =>
    let sd : Int × List Char :=
      if c = '+' then (1, cs) else if c = '-' then (-1, cs) else (1, c :: cs)
    if sd.2 = [] then none
    else if sd.2.all (fun d => d.isDigit) then
      let mag : Nat := sd.2.foldl (fun a d => a * 10 + (d.toNat - 48)) 0
      let v : Int := sd.1 * mag
      if -(2 ^ 63) ≤ v ∧ v ≤ 2 ^ 63 - 1 then some v else none
    else none

/-- Two's-complement reduction into the signed 64-bit range: the value a
release-build Rust `i64` addition stores for the exact integer sum. -/
def i64wrap (x : Int) : Int := (x + 2 ^ 63) % 2 ^ 64 - 2 ^ 63

/-- `RwLockEngine::increment`: default amount 1, an absent key counts as
prior value 0, a present non-numeric value is an error leaving the map
unchanged, otherwise the new value is stored in decimal. The error value is
`Err`, mutation happens only on the `Ok` path, so the returned map models
the map after the call. -/
def increment (data : List (String × String)) (key : String)
    (amount : Option Int) : Except String Int × List (String × String) :=
  let increment_by := amount.getD 1
  match alookup key data with
  | some value =>
    match parseI64 value with
    | none =>
      (Except.error ("Value for key " ++ key ++ " is not a valid number"), data)
    | some current_value =>
      let new_value := i64wrap (current_value + increment_by)
      (Except.ok new_value, assocSet key (toString new_value) data)
  | none =>
    let new_value := i64wrap (0 + increment_by)
    (Except.ok new_value, assocSet key (toString new_value) data)

/-- `RwLockEngine::decrement`. -/
def decrement (data : List (String × String)) (key : String)
    (amount : Option Int) : Except String Int × List (String × String) :=
  let decrement_by := amount.getD 1
  match alookup key data with
  | some value =>
    match parseI64 value with
    | none =>
      (Except.error ("Value for key " ++ key ++ " is not a valid number"), data)
    | some current_value =>
      let new_value := i64wrap (current_value - decrement_by)
      (Except.ok new_value, assocSet key (toString new_value) data)
  | none =>
    let new_value := i64wrap (0 - decrement_by)
    (Except.ok new_value, assocSet key (toString new_value) data)

theorem i64wrap_range (x : Int) :
    -(2 ^ 63) ≤ i64wrap x ∧ i64wrap x ≤ 2 ^ 63 - 1 := by
  have e1 : ((2 : Int) ^ 63) = 9223372036854775808 := by norm_num
  have e2 : ((2 : Int) ^ 64) = 18446744073709551616 := by norm_num
  simp only [i64wrap, e1, e2]
  omega

/-! ## Claim C8: INC / DEC semantics -/

/-- **C8.** `increment`/`decrement` default the amount to 1, treat an absent
key as prior value 0, store the new signed-64-bit value in decimal and
return it; a present value that does not parse as a signed integer yields an
error and leaves the stored value unchanged. -/
theorem incr_decr_semantics (data : List (String × String)) (key : String)
    (amount : Option Int) :
    (alookup key data = none →
      increment data key amount =
        (Except.ok (i64wrap (0 + amount.getD 1)),
          assocSet key (toString (i64wrap (0 + amount.getD 1))) data) ∧
      decrement data key amount =
        (Except.ok (i64wrap (0 - amount.getD 1)),
          assocSet key (toString (i64wrap (0 - amount.getD 1))) data)) ∧
    (∀ s, alookup key data = some s → parseI64 s = none →
      increment data key amount =
        (Except.error ("Value for key " ++ key ++ " is not a valid number"),
          data) ∧
      decrement data key amount =
        (Except.error ("Value for key " ++ key ++ " is not a valid number"),
          data)) ∧
    (∀ s n, alookup key data = some s → parseI64 s = some n →
      increment data key amount =
        (Except.ok (i64wrap (n + amount.getD 1)),
          assocSet key (toString (i64wrap (n + amount.getD 1))) data) ∧
      decrement data key amount =
        (Except.ok (i64wrap (n - amount.getD 1)),
          assocSet key (toString (i64wrap (n - amount.getD 1))) data)) ∧
    (increment data key none = increment data key (some 1) ∧
      decrement data key none = decrement data key (some 1)) ∧
    (∀ x : Int, -(2 ^ 63) ≤ i64wrap x ∧ i64wrap x ≤ 2 ^ 63 - 1) := by
  refine ⟨fun habs => ?_, fun s hs hp => ?_, fun s n hs hp => ?_, ⟨rfl, rfl⟩,
    i64wrap_range⟩
  · simp only [increment, decrement, habs]
    exact ⟨trivial, trivial⟩
  · simp only [increment, decrement, hs, hp]
    exact ⟨trivial, trivial⟩
  · simp only [increment, decrement, hs, hp]
    exact ⟨trivial, trivial⟩

/-- Closed witness for `incr_decr_semantics`, applying each conjunct at
concrete inputs. -/
theorem incr_decr_semantics_witness :
    (increment [] "k" (some 5) =
      (Except.ok (i64wrap (0 + (Option.some (5 : Int)).getD 1)),
        assocSet "k" (toString (i64wrap (0 + (Option.some (5 : Int)).getD 1)))
          []) ∧
      decrement [] "k" (some 5) =
        (Except.ok (i64wrap (0 - (Option.some (5 : Int)).getD 1)),
          assocSet "k" (toString (i64wrap (0 - (Option.some (5 : Int)).getD 1)))
            [])) ∧
    increment [("k", "abc")] "k" (some 5) =
      (Except.error ("Value for key " ++ "k" ++ " is not a valid number"),
        [("k", "abc")]) ∧
    increment [("k", "41")] "k" (some 1) =
      (Except.ok (i64wrap (41 + (Option.some (1 : Int)).getD 1)),
        assocSet "k" (toString (i64wrap (41 + (Option.some (1 : Int)).getD 1)))
          [("k", "41")]) := by
  refine ⟨(incr_decr_semantics [] "k" (some 5)).1 (by decide), ?_, ?_⟩
  · exact ((incr_decr_semantics [("k", "abc")] "k" (some 5)).2.1 "abc"
      (by decide) (by decide)).1
  · exact ((incr_decr_semantics [("k", "41")] "k" (some 1)).2.2.1 "41" 41
      (by decide) (by decide)).1

/-! ## Claim C10: unchecked i64 overflow wraps -/

/-- **C10.** When the stored value parses as a signed 64-bit integer and the
exact sum with the (defaulted) amount falls outside the `i64` range, no
error is reported: `increment` succeeds and stores the two's-complement
wrapped sum, which is congruent to the exact sum modulo `2^64`. -/
theorem incr_overflow_wraps (data : List (String × String)) (key s : String)
    (n : Int) (amount : Option Int)
    (hv : alookup key data = some s) (hp : parseI64 s = some n)
    (_hover : n + amount.getD 1 < -(2 ^ 63) ∨ 2 ^ 63 - 1 < n + amount.getD 1) :
    increment data key amount =
      (Except.ok (i64wrap (n + amount.getD 1)),
        assocSet key (toString (i64wrap (n + amount.getD 1))) data) ∧
    i64wrap (n + amount.getD 1) % 2 ^ 64 = (n + amount.getD 1) % 2 ^ 64 := by
  constructor
  · simp only [increment, hv, hp]
  · have e1 : ((2 : Int) ^ 63) = 9223372036854775808 := by norm_num
    have e2 : ((2 : Int) ^ 64) = 18446744073709551616 := by norm_num
    simp only [i64wrap, e1, e2]
    omega

/-- Closed witness for `incr_overflow_wraps`: incrementing the stored value
`9223372036854775807` (`i64::MAX`) by 1 succeeds and stores
`-9223372036854775808`. -/
theorem incr_overflow_wraps_witness :
    increment [("k", "9223372036854775807")] "k" (some 1) =
      (Except.ok (i64wrap (9223372036854775807 + (Option.some (1 : Int)).getD 1)),
        assocSet "k"
          (toString (i64wrap (9223372036854775807 +
            (Option.some (1 : Int)).getD 1)))
          [("k", "9223372036854775807")]) ∧
    i64wrap (9223372036854775807 + (Option.some (1 : Int)).getD 1) =
      -9223372036854775808 := by
  constructor
  · exact (incr_overflow_wraps [("k", "9223372036854775807")] "k"
      "9223372036854775807" 9223372036854775807 (some 1) (by decide) (by decide)
      (by decide)).1
  · decide

end MerkleKV